import Mathlib

/-!
Shallow embedding of the Espruino array engine (`src/src/jswrap_array.c`)
and proofs about its operations.

An array is embedded as its list of index bindings `(index, value)` in
ascending index order (§3 of the design: children of an array container are
index bindings linked in ascending order; arrays may be sparse).  Machine
integers (`JsVarInt`) are embedded as `Int`.  Node-store primitives that are
not part of the source under verification (`jsvGetArrayLength`,
`jsvArrayInsertBefore`, `jsvMathsOp`) are modelled from the spec, each marked
in its doc comment.
-/

namespace Espruino

/-- Interpreter values (`JsVar`), restricted to the kinds the array
operations inspect: undefined, integer scalars, plain objects, function
references (opaque), and arrays (given by their element list). -/
inductive JsVal : Type where
  | undef : JsVal
  | int : Int → JsVal
  | obj : JsVal
  | func : Nat → JsVal
  | arr : List JsVal → JsVal

/-- `jsvIsFunction`. -/
def jsvIsFunction : JsVal → Bool
  | JsVal.func _ => true
  | _ => false

/-- `jsvIsObject`. -/
def jsvIsObject : JsVal → Bool
  | JsVal.obj => true
  | _ => false

/-- `jsvIsUndefined`. -/
def jsvIsUndefined : JsVal → Bool
  | JsVal.undef => true
  | _ => false

/-- `jsvIsArray`. -/
def jsvIsArray : JsVal → Bool
  | JsVal.arr _ => true
  | _ => false

/-- Binding list of a dense array slice: values `l` bound at consecutive
indices starting at `n`. -/
def withIndicesFrom (n : Int) : List α → List (Int × α)
  | [] => []
  | x :: xs => (n, x) :: withIndicesFrom (n + 1) xs

/-- Modelled from the spec: `jsvGetArrayLength` is a node-store primitive not
under src/.  §3: "Length is derived, not stored: it is one more than the
maximum bound index, or zero if no children exist." -/
def arrayLength (arr : List (Int × α)) : Int :=
  arr.foldl (fun m p => max m p.1) (-1) + 1

/-! ## sort (`_jswrap_array_sort`, lines 350-405)

The C function sorts the `n` elements reachable from an iterator `head`.
We embed the segment it spans as the list of its values: the top-level
caller (`jswrap_array_sort`) counts `n` as the number of existing bindings
and each recursive call spans exactly the sub-segment it is given, so the
count parameter always equals the segment length.  The `n` parameter of the
C code reappears as structural fuel (initialised to the segment length by
`_jswrap_array_sort`); partitions are strictly shorter than their segment,
so fuel equal to the length is never exhausted. -/

/-- Effect on the slice between `pivot` and `it` of the three
`jsvIteratorSetValue` writes done for a "low" element: the old pivot slot
is overwritten by the low value, the pivot moves one slot forward, and the
value that occupied that slot (the head of the high run, if any) is written
into the slot `it` vacated, i.e. to the end of the high run. -/
def midShift : List α → List α
  | [] => []
  | h :: t => t ++ [h]

/-- The partition pass of `_jswrap_array_sort` (the `while (--n ...)` loop),
without interruption.  State: `lows` = values now behind the pivot, `mid` =
the high run between pivot and `it`, first argument = values not yet
visited.  `leq x pivotValue` is `_jswrap_array_sort_leq(x, pivotValue)`. -/
def sortScan (leq : α → α → Bool) (pivotValue : α) :
    List α → List α → List α → List α × List α
  | [], lows, mid => (lows, mid)
  | x :: rest, lows, mid =>
    if leq x pivotValue then sortScan leq pivotValue rest (lows ++ [x]) (midShift mid)
    else sortScan leq pivotValue rest lows (mid ++ [x])

/-- `_jswrap_array_sort` with the interrupt flag never set, on a segment
given as a value list, with explicit fuel standing for the `n` recursion
(see section comment). -/
def sortFuel (leq : α → α → Bool) : Nat → List α → List α
  | 0, xs => xs
  | _ + 1, [] => []
  | _ + 1, [x] => [x]
  | f + 1, p :: q :: rest =>
    let s := sortScan leq p (q :: rest) [] []
    sortFuel leq f s.1 ++ p :: sortFuel leq f s.2

/-- `_jswrap_array_sort` on a full segment (fuel = element count `n`, as in
the C call). -/
def _jswrap_array_sort (leq : α → α → Bool) (xs : List α) : List α :=
  sortFuel leq xs.length xs

/-- `_jswrap_array_sort_leq` (lines 340-348) for integer scalars: with a
comparator, `compare(a,b) < 0`; without one, the host's default relational
less-or-equal (`jsvMathsOp(a,b,LEX_LEQUAL)`, not under src/, modelled from
the spec as `a ≤ b` on integer scalars). -/
def _jswrap_array_sort_leq (compareFn : Option (Int → Int → Int)) (a b : Int) : Bool :=
  match compareFn with
  | some f => decide (f a b < 0)
  | none => decide (a ≤ b)

/-- A comparator that always answers `1` ("a sorts after b" for every pair). -/
def cmpConstOne : Int → Int → Int := fun _ _ => 1

/-- The partition pass with cooperative interruption.  The process-wide
interrupt flag is monotone during one sort call, so it is modelled by a
threshold `t`: `jspIsInterrupted()` reads true once `t` or more pass
iterations have happened overall (`el` = iterations elapsed so far).
Returns (lows, mid, unvisited rest, elapsed). -/
def sortScanInt (t : Nat) (leq : α → α → Bool) (pivotValue : α) :
    List α → List α → List α → Nat → List α × List α × List α × Nat
  | [], lows, mid, el => (lows, mid, [], el)
  | x :: rest, lows, mid, el =>
    if t ≤ el then (lows, mid, x :: rest, el)
    else if leq x pivotValue then
      sortScanInt t leq pivotValue rest (lows ++ [x]) (midShift mid) (el + 1)
    else sortScanInt t leq pivotValue rest lows (mid ++ [x]) (el + 1)

/-- `_jswrap_array_sort` with the interrupt threshold `t` (see
`sortScanInt`): abandons the pass when the flag is set, and checks the flag
once more before recursing (`if (jspIsInterrupted()) return`). -/
def sortIntFuel (t : Nat) (leq : α → α → Bool) : Nat → List α → Nat → List α × Nat
  | 0, xs, el => (xs, el)
  | _ + 1, [], el => ([], el)
  | _ + 1, [x], el => ([x], el)
  | f + 1, p :: q :: rest, el =>
    let s := sortScanInt t leq p (q :: rest) [] [] el
    if t ≤ s.2.2.2 then (s.1 ++ p :: (s.2.1 ++ s.2.2.1), s.2.2.2)
    else
      let lo := sortIntFuel t leq f s.1 s.2.2.2
      let hi := sortIntFuel t leq f s.2.1 lo.2
      (lo.1 ++ p :: hi.1, hi.2)

/-- Top-level interruptible sort: flag becomes set after `t` pass
iterations (for `t` at least the total iteration count this is the
uninterrupted run). -/
def _jswrap_array_sortI (t : Nat) (leq : α → α → Bool) (xs : List α) : List α × Nat :=
  sortIntFuel t leq xs.length xs 0

/-! ## splice (`jswrap_array_splice`, lines 192-262) -/

/-- The `newItems` count of `jswrap_array_splice`: one per supplied optional
element parameter. -/
def spliceNewItems (e1 e2 e3 e4 e5 e6 : Option α) : Int :=
  (if e1.isSome then 1 else 0) + (if e2.isSome then 1 else 0) +
  (if e3.isSome then 1 else 0) + (if e4.isSome then 1 else 0) +
  (if e5.isSome then 1 else 0) + (if e6.isSome then 1 else 0)

/-- The main iterator loop of `jswrap_array_splice` (lines 214-239): keep
bindings with `idx < index` in place, remove (collecting values in order)
those with `idx < index + howMany`, and stop at the first other binding.
Returns (kept bindings before the stop point, removed values, bindings from
the stop point on). -/
def spliceScan (index hmEnd : Int) :
    List (Int × α) → List (Int × α) × List α × List (Int × α)
  | [] => ([], [], [])
  | (i, v) :: rest =>
    if i < index then
      let r := spliceScan index hmEnd rest
      ((i, v) :: r.1, r.2.1, r.2.2)
    else if i < hmEnd then
      let r := spliceScan index hmEnd rest
      (r.1, v :: r.2.1, r.2.2)
    else ([], [], (i, v) :: rest)

/-- The renumbering loop of `jswrap_array_splice` (lines 250-257): add
`shift` to the index of every binding from the stop point on. -/
def renumber (shift : Int) (l : List (Int × α)) : List (Int × α) :=
  l.map fun p => (p.1 + shift, p.2)

/-- The index normalization of `jswrap_array_splice` (lines 194-196):
`if (index<0) index+=len; if (index<0) index=0; if (index>len) index=len;`. -/
def spliceNormIndex (len index : Int) : Int :=
  let i1 := if index < 0 then index + len else index
  let i2 := if i1 < 0 then 0 else i1
  if i2 > len then len else i2

/-- The `howMany` computation of `jswrap_array_splice` (lines 197-199):
defaults to `len` when the argument is not an integer, then is clamped from
above (only) to `len - index`. -/
def spliceHowManyCode (len ix : Int) (howManyVar : Option Int) : Int :=
  let hm0 := match howManyVar with | some h => h | none => len
  if hm0 > len - ix then len - ix else hm0

/-- `jswrap_array_splice`.  `howManyVar` is `some h` when the argument is an
integer, `none` otherwise; each `e*` is `some v` when that optional element
parameter was supplied; `resultAlloc` models success of the
`jsvNewWithFlags(JSV_ARRAY)` allocation of the result array (§7: node-store
allocation may fail; the C keeps going and returns no value).
Insertion is modelled from the spec: `jsvArrayInsertBefore` is a node-store
primitive not under src/; §4.2 says the supplied items are inserted in call
order immediately before the first retained binding at or after
`index+howMany`, and per the §8 example (`[1,2,3].splice(1,1,"a","b")` →
`[1,"a","b",3]`) they occupy consecutive indices from the splice point. -/
def jswrap_array_splice (arr : List (Int × α)) (index : Int) (howManyVar : Option Int)
    (e1 e2 e3 e4 e5 e6 : Option α) (resultAlloc : Bool) :
    List (Int × α) × Option (List α) :=
  let len := arrayLength arr
  let ix := spliceNormIndex len index
  let howMany := spliceHowManyCode len ix howManyVar
  let newItems := spliceNewItems e1 e2 e3 e4 e5 e6
  let shift := newItems - howMany
  let s := spliceScan ix (ix + howMany) arr
  let items := [e1, e2, e3, e4, e5, e6].filterMap id
  (s.1 ++ withIndicesFrom ix items ++ renumber shift s.2.2,
   if resultAlloc then some s.2.1 else none)

/-- The claim's index normalization: negative counts back from the length,
then clamp to `[0, len]`. -/
def specSpliceIndex (len index : Int) : Int :=
  min (max (if index < 0 then index + len else index) 0) len

/-- The claim's `howMany` normalization: default "all remaining" when the
argument is not an integer, clamp to `[0, len - ix]`. -/
def specSpliceHowMany (len ix : Int) (howManyVar : Option Int) : Int :=
  match howManyVar with
  | some h => max (min h (len - ix)) 0
  | none => len - ix

/-! ## slice (`jswrap_array_slice`, lines 272-319) -/

/-- The iterator loop of `jswrap_array_slice` (lines 300-314): skip bindings
with `idx < k`; afterwards, while `k < final`, collect one element per
binding and increment `k`; stop once `k` reaches `final`. -/
def sliceLoop (final : Int) : Int → List (Int × α) → List α
  | _, [] => []
  | k, (i, v) :: rest =>
    if i < k then sliceLoop final k rest
    else if k < final then v :: sliceLoop final (k + 1) rest
    else []

/-- `jswrap_array_slice`.  `startVar`/`endVar` are `some` when the argument
is given (not undefined). -/
def jswrap_array_slice (arr : List (Int × α)) (startVar endVar : Option Int) : List α :=
  let len := arrayLength arr
  let start := match startVar with | some s => s | none => 0
  let stop := match endVar with | some e => e | none => len
  let k := if start < 0 then max (len + start) 0 else min start len
  let final := if stop < 0 then max (len + stop) 0 else min stop len
  sliceLoop final k arr

/-- The claim's slice-bound normalization (same rule as splice's index). -/
def specSliceBound (len v : Int) : Int :=
  if v < 0 then max (len + v) 0 else min v len

/-! ## concat (`jswrap_array_concat`, lines 454-479) -/

/-- The outer loop of `jswrap_array_concat`: for each source in turn, if it
is an array the C code iterates `parent` (the receiver!) and appends the
receiver's elements — this control-flow defect is embedded as-is; otherwise
the source itself is appended as one element. -/
def concatLoop (parent : List JsVal) : List JsVal → List JsVal
  | [] => []
  | s :: rest =>
    (match s with
     | JsVal.arr _ => parent
     | v => [v]) ++ concatLoop parent rest

/-- `jswrap_array_concat`: the receiver (an array, given by its element
list) is the first source, then each argument in order. -/
def jswrap_array_concat (parent : List JsVal) (args : List JsVal) : List JsVal :=
  concatLoop parent (JsVal.arr parent :: args)

/-- One-level flattening of the argument list, per the corrected contract:
an array argument contributes its elements, any other argument itself. -/
def concatArgsFlat : List JsVal → List JsVal
  | [] => []
  | JsVal.arr xs :: rest => xs ++ concatArgsFlat rest
  | v :: rest => v :: concatArgsFlat rest

/-- The corrected `concat` contract stated by the claim (and §4.2/§9 of the
spec): receiver's elements first, then each argument flattened one level. -/
def concat_contract (parent : List JsVal) (args : List JsVal) : List JsVal :=
  parent ++ concatArgsFlat args

/-! ## constructor (`jswrap_array_constructor`, lines 37-60) -/

/-- `jswrap_array_constructor`.  Result bindings carry `Option JsVal`: the
single marker binding created for `new Array(n)`, `n > 0`, has no bound
value (`jsvMakeIntoVariableName(jsvNewFromInteger(count-1), 0)`).  In every
fallthrough case the C returns the `args` array itself (dense bindings of
the arguments). -/
def jswrap_array_constructor (args : List JsVal) : List (Int × Option JsVal) :=
  match args with
  | [JsVal.int i] =>
    if 0 ≤ i then
      if 0 < i then [(i - 1, none)]
      else withIndicesFrom 0 (args.map some)
    else withIndicesFrom 0 (args.map some)
  | _ => withIndicesFrom 0 (args.map some)

/-! ## map / forEach (`_jswrap_array_map_or_forEach`, lines 123-165) -/

/-- The iteration of `_jswrap_array_map_or_forEach` over the integer-named
bindings: `callFn v i` stands for the evaluator call
`jspeFunctionCall(funcVar, ..., {v, i, parent})` returning `some` result or
no value.  Returns the new (index, mapped value) bindings kept when mapping
(a no-value return produces no binding) and, to make the callback activity
observable, the list of (value, index) invocations made. -/
def mapForEachLoop (callFn : JsVal → Int → Option JsVal) (isMap : Bool) :
    List (Int × JsVal) → List (Int × JsVal) × List (JsVal × Int)
  | [] => ([], [])
  | (i, v) :: rest =>
    let mapped := callFn v i
    let r := mapForEachLoop callFn isMap rest
    (match mapped with
     | some m => if isMap then (i, m) :: r.1 else r.1
     | none => r.1,
     (v, i) :: r.2)

/-- `_jswrap_array_map_or_forEach`: result is (error raised?, returned array
if any, callback invocations made).  Argument validation happens before the
loop: non-callable `funcVar`, or a `thisVar` that is neither undefined nor
an object, raises a typed error (`jsError`) and returns no value. -/
def _jswrap_array_map_or_forEach (parent : List (Int × JsVal)) (funcVar thisVar : JsVal)
    (callFn : JsVal → Int → Option JsVal) (isMap : Bool) :
    Bool × Option (List (Int × JsVal)) × List (JsVal × Int) :=
  if !jsvIsFunction funcVar then (true, none, [])
  else if !jsvIsUndefined thisVar && !jsvIsObject thisVar then (true, none, [])
  else
    let r := mapForEachLoop callFn isMap parent
    (false, if isMap then some r.1 else none, r.2)

/-- `jswrap_array_map`. -/
def jswrap_array_map (parent : List (Int × JsVal)) (funcVar thisVar : JsVal)
    (callFn : JsVal → Int → Option JsVal) :
    Bool × Option (List (Int × JsVal)) × List (JsVal × Int) :=
  _jswrap_array_map_or_forEach parent funcVar thisVar callFn true

/-- `jswrap_array_forEach`. -/
def jswrap_array_forEach (parent : List (Int × JsVal)) (funcVar thisVar : JsVal)
    (callFn : JsVal → Int → Option JsVal) :
    Bool × Option (List (Int × JsVal)) × List (JsVal × Int) :=
  _jswrap_array_map_or_forEach parent funcVar thisVar callFn false

/-! ## Lemmas about the partition pass and the sort -/

theorem midShift_perm (l : List α) : List.Perm (midShift l) l := by
  cases l with
  | nil => exact List.Perm.refl _
  | cons h t => exact List.perm_append_singleton h t

theorem midShift_length (l : List α) : (midShift l).length = l.length := by
  cases l <;> simp [midShift]

theorem sortScan_fst (leq : α → α → Bool) (pv : α) (pend : List α) :
    ∀ (lows mid : List α),
      (sortScan leq pv pend lows mid).1 = lows ++ pend.filter (fun x => leq x pv) := by
  induction pend with
  | nil => intro lows mid; simp [sortScan]
  | cons x rest ih =>
    intro lows mid
    cases h : leq x pv with
    | true => simp [sortScan, h, ih, List.filter_cons]
    | false => simp [sortScan, h, ih, List.filter_cons]

theorem sortScan_snd_perm (leq : α → α → Bool) (pv : α) (pend : List α) :
    ∀ (lows mid : List α),
      List.Perm (sortScan leq pv pend lows mid).2 (mid ++ pend.filter (fun x => !leq x pv)) := by
  induction pend with
  | nil => intro lows mid; simp [sortScan]
  | cons x rest ih =>
    intro lows mid
    cases h : leq x pv with
    | true =>
      simp only [sortScan, h, if_pos]
      exact (ih (lows ++ [x]) (midShift mid)).trans
        (by simpa [List.filter_cons, h] using ((midShift_perm mid).append_right
          (rest.filter (fun x => !leq x pv))))
    | false =>
      simp only [sortScan, h, Bool.false_eq_true, if_neg, not_false_iff]
      simpa [List.filter_cons, h, List.append_assoc] using ih lows (mid ++ [x])

theorem sortScan_length (leq : α → α → Bool) (pv : α) (pend : List α) :
    ∀ (lows mid : List α),
      (sortScan leq pv pend lows mid).1.length + (sortScan leq pv pend lows mid).2.length
        = pend.length + lows.length + mid.length := by
  induction pend with
  | nil => intro lows mid; simp [sortScan]
  | cons x rest ih =>
    intro lows mid
    cases h : leq x pv with
    | true =>
      simp only [sortScan, h, if_pos, List.length_cons]
      have := ih (lows ++ [x]) (midShift mid)
      simp [midShift_length] at this
      omega
    | false =>
      simp only [sortScan, h, Bool.false_eq_true, if_neg, not_false_iff, List.length_cons]
      have := ih lows (mid ++ [x])
      simp at this
      omega

theorem sortFuel_perm (leq : α → α → Bool) :
    ∀ (f : Nat) (xs : List α), xs.length ≤ f → List.Perm (sortFuel leq f xs) xs := by
  intro f
  induction f with
  | zero => intro xs _; exact List.Perm.refl _
  | succ f ih =>
    intro xs h
    match xs with
    | [] => exact List.Perm.refl _
    | [x] => exact List.Perm.refl _
    | pv :: q :: rest =>
      simp only [sortFuel]
      have hl := sortScan_length leq pv (q :: rest) [] []
      simp only [List.length_cons, List.length_nil] at hl h
      have pa := ih (sortScan leq pv (q :: rest) [] []).1 (by omega)
      have pb := ih (sortScan leq pv (q :: rest) [] []).2 (by omega)
      refine ((pa.append (pb.cons pv)).trans ?_)
      refine List.perm_middle.trans (List.Perm.cons pv ?_)
      rw [sortScan_fst leq pv (q :: rest) [] []]
      simp only [List.nil_append]
      exact (((sortScan_snd_perm leq pv (q :: rest) [] []).append_left _).trans
        (by simpa using List.filter_append_perm (fun x => leq x pv) (q :: rest)))

theorem sortFuel_chain (leq : α → α → Bool) (R : α → α → Prop)
    (h1 : ∀ a b, leq a b = true → R a b) (h2 : ∀ a b, leq a b = false → R b a) :
    ∀ (f : Nat) (xs : List α), xs.length ≤ f → List.Chain' R (sortFuel leq f xs) := by
  intro f
  induction f with
  | zero =>
    intro xs h
    have : xs = [] := List.eq_nil_of_length_eq_zero (Nat.le_zero.mp h)
    subst this
    simp [sortFuel]
  | succ f ih =>
    intro xs h
    match xs with
    | [] => simp [sortFuel]
    | [x] => simp [sortFuel]
    | pv :: q :: rest =>
      simp only [sortFuel]
      have hl := sortScan_length leq pv (q :: rest) [] []
      simp only [List.length_cons, List.length_nil] at hl h
      have hb1 : (sortScan leq pv (q :: rest) [] []).1.length ≤ f := by omega
      have hb2 : (sortScan leq pv (q :: rest) [] []).2.length ≤ f := by omega
      refine List.chain'_append.mpr ⟨ih _ hb1, List.chain'_cons'.mpr ⟨?_, ih _ hb2⟩, ?_⟩
      · intro y hy
        have hy2 : y ∈ (sortScan leq pv (q :: rest) [] []).2 :=
          (sortFuel_perm leq f _ hb2).mem_iff.mp (List.mem_of_mem_head? hy)
        have := (sortScan_snd_perm leq pv (q :: rest) [] []).mem_iff.mp hy2
        simp only [List.nil_append, List.mem_filter, Bool.not_eq_eq_eq_not, Bool.not_true] at this
        exact h2 y pv this.2
      · intro x hx y hy
        simp only [List.head?_cons, Option.mem_def, Option.some.injEq] at hy
        subst hy
        have hx2 : x ∈ (sortScan leq pv (q :: rest) [] []).1 :=
          (sortFuel_perm leq f _ hb1).mem_iff.mp (List.mem_of_mem_getLast? hx)
        rw [sortScan_fst leq pv (q :: rest) [] []] at hx2
        simp only [List.nil_append, List.mem_filter] at hx2
        exact h1 x pv hx2.2

theorem sortScanInt_perm (t : Nat) (leq : α → α → Bool) (pv : α) (pend : List α) :
    ∀ (lows mid : List α) (el : Nat),
      (sortScanInt t leq pv pend lows mid el).1
        ++ ((sortScanInt t leq pv pend lows mid el).2.1
          ++ (sortScanInt t leq pv pend lows mid el).2.2.1) |>.Perm
        (lows ++ (mid ++ pend)) := by
  induction pend with
  | nil => intro lows mid el; simp [sortScanInt]
  | cons x rest ih =>
    intro lows mid el
    by_cases ht : t ≤ el
    · simp [sortScanInt, ht]
    · cases h : leq x pv with
      | true =>
        simp only [sortScanInt, ht, if_neg, not_false_iff, h, if_pos]
        refine (ih (lows ++ [x]) (midShift mid) (el + 1)).trans ?_
        refine (((midShift_perm mid).append_right rest).append_left (lows ++ [x])).trans ?_
        have he : (lows ++ [x]) ++ (mid ++ rest) = lows ++ x :: (mid ++ rest) := by simp
        rw [he]
        exact (List.perm_middle.symm.append_left lows)
      | false =>
        simp only [sortScanInt, ht, if_neg, not_false_iff, h, Bool.false_eq_true]
        simpa [List.append_assoc] using ih lows (mid ++ [x]) (el + 1)

theorem sortScanInt_pend (t : Nat) (leq : α → α → Bool) (pv : α) (pend : List α) :
    ∀ (lows mid : List α) (el : Nat),
      (sortScanInt t leq pv pend lows mid el).2.2.1 = []
        ∨ t ≤ (sortScanInt t leq pv pend lows mid el).2.2.2 := by
  induction pend with
  | nil => intro lows mid el; left; simp [sortScanInt]
  | cons x rest ih =>
    intro lows mid el
    by_cases ht : t ≤ el
    · right; simp [sortScanInt, ht]
    · cases h : leq x pv with
      | true =>
        simpa only [sortScanInt, ht, if_neg, not_false_iff, h, if_pos] using
          ih (lows ++ [x]) (midShift mid) (el + 1)
      | false =>
        simpa only [sortScanInt, ht, if_neg, not_false_iff, h, Bool.false_eq_true] using
          ih lows (mid ++ [x]) (el + 1)

theorem sortIntFuel_perm (t : Nat) (leq : α → α → Bool) :
    ∀ (f : Nat) (xs : List α) (el : Nat), List.Perm (sortIntFuel t leq f xs el).1 xs := by
  intro f
  induction f with
  | zero => intro xs el; exact List.Perm.refl _
  | succ f ih =>
    intro xs el
    match xs with
    | [] => exact List.Perm.refl _
    | [x] => exact List.Perm.refl _
    | pv :: q :: rest =>
      simp only [sortIntFuel]
      by_cases ht : t ≤ (sortScanInt t leq pv (q :: rest) [] [] el).2.2.2
      · simp only [ht, if_pos]
        refine List.perm_middle.trans (List.Perm.cons pv ?_)
        simpa using sortScanInt_perm t leq pv (q :: rest) [] [] el
      · simp only [ht, if_neg, not_false_iff]
        have hpend : (sortScanInt t leq pv (q :: rest) [] [] el).2.2.1 = [] :=
          (sortScanInt_pend t leq pv (q :: rest) [] [] el).resolve_right ht
        have hperm := sortScanInt_perm t leq pv (q :: rest) [] [] el
        rw [hpend] at hperm
        simp only [List.append_nil, List.nil_append] at hperm
        refine ((ih _ _).append ((ih _ _).cons pv)).trans ?_
        exact List.perm_middle.trans (List.Perm.cons pv hperm)

/-! ## Lemmas about binding lists -/

theorem withIndicesFrom_append (a : List α) :
    ∀ (n : Int) (b : List α),
      withIndicesFrom n (a ++ b) = withIndicesFrom n a ++ withIndicesFrom (n + a.length) b := by
  induction a with
  | nil => intro n b; simp [withIndicesFrom]
  | cons x xs ih =>
    intro n b
    have h1 : withIndicesFrom n ((x :: xs) ++ b) = (n, x) :: withIndicesFrom (n + 1) (xs ++ b) := rfl
    have h2 : withIndicesFrom n (x :: xs) = (n, x) :: withIndicesFrom (n + 1) xs := rfl
    have h3 : n + (((x :: xs).length : Nat) : Int) = n + 1 + (xs.length : Int) := by
      push_cast [List.length_cons]
      ring
    rw [h1, h2, ih (n + 1), List.cons_append, h3]

theorem withIndicesFrom_map_snd (l : List α) :
    ∀ n : Int, (withIndicesFrom n l).map Prod.snd = l := by
  induction l with
  | nil => intro n; rfl
  | cons x xs ih => intro n; simp [withIndicesFrom, ih]

theorem withIndicesFrom_length (l : List α) :
    ∀ n : Int, (withIndicesFrom n l).length = l.length := by
  induction l with
  | nil => intro n; rfl
  | cons x xs ih => intro n; simp [withIndicesFrom, ih]

theorem fst_lt_of_mem_withIndicesFrom (l : List α) :
    ∀ (m : Int), ∀ q ∈ withIndicesFrom m l, m ≤ q.1 := by
  induction l with
  | nil => intro m q hq; simp [withIndicesFrom] at hq
  | cons x xs ih =>
    intro m q hq
    simp only [withIndicesFrom, List.mem_cons] at hq
    rcases hq with h | h
    · subst h; simp
    · have := ih (m + 1) q h; omega

theorem withIndicesFrom_pairwise (l : List α) :
    ∀ n : Int, List.Pairwise (fun p q : Int × α => p.1 < q.1) (withIndicesFrom n l) := by
  induction l with
  | nil => intro n; simp [withIndicesFrom]
  | cons x xs ih =>
    intro n
    simp only [withIndicesFrom, List.pairwise_cons]
    refine ⟨fun q hq => ?_, ih (n + 1)⟩
    have := fst_lt_of_mem_withIndicesFrom xs (n + 1) q hq
    change n < q.1
    omega

theorem mem_withIndicesFrom_iff (l : List α) :
    ∀ (n i : Int) (v : α),
      (i, v) ∈ withIndicesFrom n l ↔ ∃ j : Nat, i = n + j ∧ l[j]? = some v := by
  induction l with
  | nil => intro n i v; simp [withIndicesFrom]
  | cons x xs ih =>
    intro n i v
    simp only [withIndicesFrom, List.mem_cons, Prod.mk.injEq, ih (n + 1)]
    constructor
    · rintro (⟨h1, h2⟩ | ⟨j, hj1, hj2⟩)
      · exact ⟨0, by omega, by simp [h2]⟩
      · exact ⟨j + 1, by omega, by simpa using hj2⟩
    · rintro ⟨j, hj1, hj2⟩
      cases j with
      | zero =>
        left
        simp only [List.getElem?_cons_zero, Option.some.injEq] at hj2
        exact ⟨by omega, hj2.symm⟩
      | succ j =>
        right
        refine ⟨j, by omega, by simpa using hj2⟩

theorem renumber_map_snd (shift : Int) (l : List (Int × α)) :
    (renumber shift l).map Prod.snd = l.map Prod.snd := by
  induction l with
  | nil => rfl
  | cons x xs ih => simp only [renumber, List.map_cons] at ih ⊢; rw [ih]

theorem renumber_withIndicesFrom (shift : Int) (l : List α) :
    ∀ n : Int, renumber shift (withIndicesFrom n l) = withIndicesFrom (n + shift) l := by
  induction l with
  | nil => intro n; rfl
  | cons x xs ih =>
    intro n
    simp only [withIndicesFrom, renumber, List.map_cons]
    have hx := ih (n + 1)
    simp only [renumber] at hx
    rw [hx, show n + 1 + shift = n + shift + 1 by ring]

theorem foldl_max_withIndicesFrom (l : List α) :
    ∀ (n m : Int),
      (withIndicesFrom n l).foldl (fun acc p => max acc p.1) m
        = if l.length = 0 then m else max m (n + l.length - 1) := by
  induction l with
  | nil => intro n m; rfl
  | cons x xs ih =>
    intro n m
    simp only [withIndicesFrom, List.foldl_cons, ih (n + 1), List.length_cons]
    by_cases h : xs.length = 0
    · rw [if_pos h, if_neg (by omega : ¬ xs.length + 1 = 0), h]
      push_cast
      omega
    · rw [if_neg h, if_neg (by omega : ¬ xs.length + 1 = 0)]
      push_cast
      omega

theorem arrayLength_withIndicesFrom (l : List α) :
    arrayLength (withIndicesFrom 0 l) = l.length := by
  rw [arrayLength, foldl_max_withIndicesFrom l 0 (-1)]
  by_cases h : l.length = 0
  · simp [h]
  · rw [if_neg h]; omega

theorem foldl_max_le (l : List (Int × α)) :
    ∀ m : Int, m ≤ l.foldl (fun acc p => max acc p.1) m := by
  induction l with
  | nil => intro m; simp
  | cons x xs ih =>
    intro m
    simp only [List.foldl_cons]
    exact le_trans (le_max_left m x.1) (ih (max m x.1))

theorem arrayLength_nonneg (arr : List (Int × α)) : 0 ≤ arrayLength arr := by
  have := foldl_max_le arr (-1)
  rw [arrayLength]
  omega

/-- On a binding list with strictly ascending indices, the splice loop
splits at the stop point: kept prefix = bindings below `index`, removed =
values of bindings in `[index, hmEnd)`, tail = bindings at or above both. -/
theorem spliceScan_eq (index hmEnd : Int) (arr : List (Int × α))
    (h : List.Pairwise (fun p q : Int × α => p.1 < q.1) arr) :
    spliceScan index hmEnd arr =
      (arr.filter (fun p => decide (p.1 < index)),
       (arr.filter (fun p => decide (index ≤ p.1 ∧ p.1 < hmEnd))).map Prod.snd,
       arr.filter (fun p => decide (index ≤ p.1 ∧ hmEnd ≤ p.1))) := by
  induction arr with
  | nil => simp [spliceScan]
  | cons pv rest ih =>
    obtain ⟨i, v⟩ := pv
    rw [List.pairwise_cons] at h
    obtain ⟨hall, hrest⟩ := h
    by_cases h1 : i < index
    · simp only [spliceScan, h1, if_pos, ih hrest]
      simp only [List.filter_cons]
      rw [if_pos (by simpa using h1),
        if_neg (by simp; omega),
        if_neg (by simp; omega)]
    · by_cases h2 : i < hmEnd
      · simp only [spliceScan, h1, if_neg, not_false_iff, h2, if_pos, ih hrest]
        simp only [List.filter_cons]
        rw [if_neg (by simpa using h1),
          if_pos (by simp; omega),
          if_neg (by simp; omega)]
        simp
      · have hgt : ∀ q ∈ rest, i < q.1 := hall
        have f1 : ((i, v) :: rest).filter (fun p => decide (p.1 < index)) = [] := by
          rw [List.filter_eq_nil_iff]
          intro q hq
          simp only [List.mem_cons] at hq
          simp only [decide_eq_true_eq]
          rcases hq with rfl | hq
          · omega
          · have := hgt q hq
            omega
        have f2 : ((i, v) :: rest).filter (fun p => decide (index ≤ p.1 ∧ p.1 < hmEnd)) = [] := by
          rw [List.filter_eq_nil_iff]
          intro q hq
          simp only [List.mem_cons] at hq
          simp only [decide_eq_true_eq, not_and]
          rcases hq with rfl | hq
          · intro _; omega
          · have := hgt q hq
            intro _; omega
        have f3 : ((i, v) :: rest).filter (fun p => decide (index ≤ p.1 ∧ hmEnd ≤ p.1))
            = (i, v) :: rest := by
          rw [List.filter_eq_self]
          intro q hq
          simp only [List.mem_cons] at hq
          simp only [decide_eq_true_eq]
          rcases hq with rfl | hq
          · omega
          · have := hgt q hq
            omega
        simp only [spliceScan, h1, h2, if_neg, not_false_iff]
        rw [f1, f2, f3]
        rfl

theorem filter_lt_withIndicesFrom (vals : List α) :
    ∀ (n b : Int),
      (withIndicesFrom n vals).filter (fun p => decide (p.1 < b))
        = withIndicesFrom n (vals.take (b - n).toNat) := by
  induction vals with
  | nil => intro n b; simp [withIndicesFrom]
  | cons x xs ih =>
    intro n b
    simp only [withIndicesFrom, List.filter_cons]
    by_cases h : n < b
    · rw [if_pos (by simpa using h), ih (n + 1) b,
        show (b - n).toNat = (b - (n + 1)).toNat + 1 by omega]
      rfl
    · rw [if_neg (by simpa using h), ih (n + 1) b,
        show (b - (n + 1)).toNat = 0 by omega,
        show (b - n).toNat = 0 by omega]
      rfl

theorem filter_ge_withIndicesFrom (vals : List α) :
    ∀ (n a : Int),
      (withIndicesFrom n vals).filter (fun p => decide (a ≤ p.1))
        = withIndicesFrom (max a n) (vals.drop (a - n).toNat) := by
  induction vals with
  | nil => intro n a; simp [withIndicesFrom]
  | cons x xs ih =>
    intro n a
    simp only [withIndicesFrom, List.filter_cons]
    by_cases h : a ≤ n
    · rw [if_pos (by simpa using h), ih (n + 1) a,
        show (a - n).toNat = 0 by omega,
        show (a - (n + 1)).toNat = 0 by omega,
        show max a n = n by omega,
        show max a (n + 1) = n + 1 by omega]
      rfl
    · rw [if_neg (by simpa using h), ih (n + 1) a,
        show max a n = a by omega,
        show max a (n + 1) = a by omega,
        show (a - n).toNat = (a - (n + 1)).toNat + 1 by omega]
      rfl

theorem filter_window_withIndicesFrom (vals : List α) :
    ∀ (n a b : Int),
      ((withIndicesFrom n vals).filter (fun p => decide (a ≤ p.1 ∧ p.1 < b))).map Prod.snd
        = (vals.drop (a - n).toNat).take (b - max a n).toNat := by
  induction vals with
  | nil => intro n a b; simp [withIndicesFrom]
  | cons x xs ih =>
    intro n a b
    simp only [withIndicesFrom, List.filter_cons]
    by_cases h1 : a ≤ n
    · by_cases h2 : n < b
      · rw [if_pos (by simp; omega), List.map_cons, ih (n + 1) a b,
          show (a - n).toNat = 0 by omega,
          show (a - (n + 1)).toNat = 0 by omega,
          show (b - max a n).toNat = (b - max a (n + 1)).toNat + 1 by omega]
        rfl
      · rw [if_neg (by simp; omega), ih (n + 1) a b,
          show (a - n).toNat = 0 by omega,
          show (a - (n + 1)).toNat = 0 by omega,
          show (b - max a n).toNat = 0 by omega,
          show (b - max a (n + 1)).toNat = 0 by omega]
        simp
    · rw [if_neg (by simp; omega), ih (n + 1) a b,
        show (a - n).toNat = (a - (n + 1)).toNat + 1 by omega,
        show max a n = max a (n + 1) by omega]
      rfl

theorem sliceLoop_withIndicesFrom (vals : List α) :
    ∀ (n k final : Int), n ≤ k →
      sliceLoop final k (withIndicesFrom n vals)
        = (vals.drop (k - n).toNat).take (final - k).toNat := by
  induction vals with
  | nil => intro n k final _; simp [withIndicesFrom, sliceLoop]
  | cons x xs ih =>
    intro n k final hnk
    simp only [withIndicesFrom, sliceLoop]
    by_cases h1 : n < k
    · rw [if_pos h1, ih (n + 1) k final (by omega),
        show (k - n).toNat = (k - (n + 1)).toNat + 1 by omega]
      rfl
    · rw [if_neg h1]
      by_cases h2 : k < final
      · rw [if_pos h2, ih (n + 1) (k + 1) final (by omega),
          show (k - n).toNat = 0 by omega,
          show (k + 1 - (n + 1)).toNat = 0 by omega,
          show (final - k).toNat = (final - (k + 1)).toNat + 1 by omega]
        rfl
      · rw [if_neg h2, show (final - k).toNat = 0 by omega]
        simp

/-! ## Lemmas about splice -/

theorem spliceNormIndex_eq_spec (len index : Int) (h : 0 ≤ len) :
    spliceNormIndex len index = specSpliceIndex len index := by
  simp only [spliceNormIndex, specSpliceIndex]
  split_ifs <;> omega

theorem specSpliceIndex_bounds (len index : Int) (h : 0 ≤ len) :
    0 ≤ specSpliceIndex len index ∧ specSpliceIndex len index ≤ len := by
  simp only [specSpliceIndex]
  split_ifs <;> omega

theorem specSpliceHowMany_bounds (len ix : Int) (hmv : Option Int) (h : 0 ≤ len - ix) :
    0 ≤ specSpliceHowMany len ix hmv ∧ specSpliceHowMany len ix hmv ≤ len - ix := by
  cases hmv <;> simp only [specSpliceHowMany] <;> omega

theorem spliceHowMany_cases (len ix : Int) (hmv : Option Int) (h : 0 ≤ len - ix) (hix : 0 ≤ ix) :
    (spliceHowManyCode len ix hmv = specSpliceHowMany len ix hmv
      ∧ 0 ≤ specSpliceHowMany len ix hmv)
    ∨ (spliceHowManyCode len ix hmv < 0 ∧ specSpliceHowMany len ix hmv = 0) := by
  cases hmv with
  | none =>
    left
    simp only [spliceHowManyCode, specSpliceHowMany]
    constructor
    · split_ifs <;> omega
    · omega
  | some hq =>
    simp only [spliceHowManyCode, specSpliceHowMany]
    by_cases hneg : hq < 0
    · right
      constructor
      · split_ifs <;> omega
      · omega
    · left
      constructor
      · split_ifs <;> omega
      · omega

theorem spliceHowManyCode_nonneg (len ix : Int) (hmv : Option Int) (h : 0 ≤ len - ix)
    (hix : 0 ≤ ix) (hnn : ∀ hq : Int, hmv = some hq → 0 ≤ hq) :
    spliceHowManyCode len ix hmv = specSpliceHowMany len ix hmv
      ∧ 0 ≤ spliceHowManyCode len ix hmv := by
  cases hmv with
  | none =>
    simp only [spliceHowManyCode, specSpliceHowMany]
    constructor
    · split_ifs <;> omega
    · split_ifs <;> omega
  | some hq =>
    have := hnn hq rfl
    simp only [spliceHowManyCode, specSpliceHowMany]
    constructor
    · split_ifs <;> omega
    · split_ifs <;> omega

theorem spliceNewItems_eq (e1 e2 e3 e4 e5 e6 : Option α) :
    spliceNewItems e1 e2 e3 e4 e5 e6
      = (([e1, e2, e3, e4, e5, e6].filterMap id).length : Int) := by
  cases e1 <;> cases e2 <;> cases e3 <;> cases e4 <;> cases e5 <;> cases e6 <;>
    simp [spliceNewItems, List.filterMap_cons]

theorem spliceNewItems_le_six (e1 e2 e3 e4 e5 e6 : Option α) :
    spliceNewItems e1 e2 e3 e4 e5 e6 ≤ 6 := by
  simp only [spliceNewItems]
  split_ifs <;> omega

/-- C3: for every array (ascending index bindings) and every integer `index`
and `howMany` argument, splice normalizes `index` (negative counts back from
the length, then clamps to `[0, len]`), clamps `howMany` to
`[0, len - index]` (defaulting to all remaining when the argument is not an
integer), removes exactly the bindings whose index lies in
`[index, index + howMany)`, returning their values in order as the result
array (empty when nothing is removed): the returned array is exactly those
values, and the receiver afterwards holds exactly the other bindings (plus
the inserted items between them). -/
theorem splice_removes_range (arr : List (Int × α)) (index : Int) (hmv : Option Int)
    (e1 e2 e3 e4 e5 e6 : Option α)
    (h : List.Pairwise (fun p q : Int × α => p.1 < q.1) arr) :
    (jswrap_array_splice arr index hmv e1 e2 e3 e4 e5 e6 true).2
      = some ((arr.filter (fun p =>
          decide (specSpliceIndex (arrayLength arr) index ≤ p.1
            ∧ p.1 < specSpliceIndex (arrayLength arr) index
              + specSpliceHowMany (arrayLength arr)
                  (specSpliceIndex (arrayLength arr) index) hmv))).map Prod.snd)
    ∧ (jswrap_array_splice arr index hmv e1 e2 e3 e4 e5 e6 true).1.map Prod.snd
      = (arr.filter (fun p =>
            decide (p.1 < specSpliceIndex (arrayLength arr) index))).map Prod.snd
        ++ [e1, e2, e3, e4, e5, e6].filterMap id
        ++ (arr.filter (fun p =>
            decide (specSpliceIndex (arrayLength arr) index
              + specSpliceHowMany (arrayLength arr)
                  (specSpliceIndex (arrayLength arr) index) hmv ≤ p.1))).map Prod.snd := by
  have hlen : 0 ≤ arrayLength arr := arrayLength_nonneg arr
  have hbix := specSpliceIndex_bounds (arrayLength arr) index hlen
  have hcases := spliceHowMany_cases (arrayLength arr)
    (specSpliceIndex (arrayLength arr) index) hmv (by omega) (by omega)
  simp only [jswrap_array_splice, spliceNormIndex_eq_spec _ _ hlen,
    spliceScan_eq _ _ arr h, List.map_append, renumber_map_snd, withIndicesFrom_map_snd]
  constructor
  · refine congrArg some (congrArg (List.map Prod.snd) (List.filter_congr ?_))
    intro p _
    rcases hcases with ⟨he, _⟩ | ⟨hneg, hz⟩
    · rw [he]
    · rw [decide_eq_decide, hz]
      omega
  · refine congrArg (fun l => _ ++ [e1, e2, e3, e4, e5, e6].filterMap id ++ l)
      (congrArg (List.map Prod.snd) (List.filter_congr ?_))
    intro p _
    rcases hcases with ⟨he, hpos⟩ | ⟨hneg, hz⟩
    · rw [he, decide_eq_decide]
      omega
    · rw [decide_eq_decide, hz]
      omega

/-- Witness for `splice_removes_range` at `[5, 7, 9].splice(1, 1, 100)`. -/
theorem splice_removes_range_witness :
    List.Pairwise (fun p q : Int × Int => p.1 < q.1) [((0 : Int), (5 : Int)), (1, 7), (2, 9)]
    ∧ ((jswrap_array_splice [((0 : Int), (5 : Int)), (1, 7), (2, 9)] 1 (some 1)
          (some 100) none none none none none true).2
        = some (([((0 : Int), (5 : Int)), (1, 7), (2, 9)].filter (fun p =>
            decide (specSpliceIndex (arrayLength [((0 : Int), (5 : Int)), (1, 7), (2, 9)]) 1 ≤ p.1
              ∧ p.1 < specSpliceIndex (arrayLength [((0 : Int), (5 : Int)), (1, 7), (2, 9)]) 1
                + specSpliceHowMany (arrayLength [((0 : Int), (5 : Int)), (1, 7), (2, 9)])
                    (specSpliceIndex (arrayLength [((0 : Int), (5 : Int)), (1, 7), (2, 9)]) 1)
                    (some 1)))).map Prod.snd)) := by
  constructor
  · decide
  · exact (splice_removes_range [((0 : Int), (5 : Int)), (1, 7), (2, 9)] 1 (some 1)
      (some 100) none none none none none (by decide)).1

theorem splice_dense_snd (vals : List α) (index : Int) (hmv : Option Int)
    (e1 e2 e3 e4 e5 e6 : Option α) (ra : Bool)
    (hnn : ∀ hq : Int, hmv = some hq → 0 ≤ hq) :
    (jswrap_array_splice (withIndicesFrom 0 vals) index hmv e1 e2 e3 e4 e5 e6 ra).2
      = if ra then
          some ((vals.drop (specSpliceIndex (vals.length : Int) index).toNat).take
            (specSpliceHowMany (vals.length : Int)
              (specSpliceIndex (vals.length : Int) index) hmv).toNat)
        else none := by
  have hlen : (0 : Int) ≤ (vals.length : Int) := by omega
  have hbix := specSpliceIndex_bounds (vals.length : Int) index hlen
  have hhm := spliceHowManyCode_nonneg (vals.length : Int)
    (specSpliceIndex (vals.length : Int) index) hmv (by omega) (by omega) hnn
  simp only [jswrap_array_splice, arrayLength_withIndicesFrom,
    spliceNormIndex_eq_spec _ _ hlen, hhm.1,
    spliceScan_eq _ _ _ (withIndicesFrom_pairwise vals 0)]
  cases ra with
  | false => simp
  | true =>
    simp only [if_pos]
    refine congrArg some ?_
    rw [filter_window_withIndicesFrom vals 0
        (specSpliceIndex (vals.length : Int) index)
        (specSpliceIndex (vals.length : Int) index
          + specSpliceHowMany (vals.length : Int)
              (specSpliceIndex (vals.length : Int) index) hmv),
      show specSpliceIndex (vals.length : Int) index - 0
          = specSpliceIndex (vals.length : Int) index by ring,
      show max (specSpliceIndex (vals.length : Int) index) 0
          = specSpliceIndex (vals.length : Int) index by omega,
      show specSpliceIndex (vals.length : Int) index
            + specSpliceHowMany (vals.length : Int)
                (specSpliceIndex (vals.length : Int) index) hmv
            - specSpliceIndex (vals.length : Int) index
          = specSpliceHowMany (vals.length : Int)
              (specSpliceIndex (vals.length : Int) index) hmv by ring]

theorem splice_dense_fst (vals : List α) (index : Int) (hmv : Option Int)
    (e1 e2 e3 e4 e5 e6 : Option α) (ra : Bool)
    (hnn : ∀ hq : Int, hmv = some hq → 0 ≤ hq) :
    (jswrap_array_splice (withIndicesFrom 0 vals) index hmv e1 e2 e3 e4 e5 e6 ra).1
      = withIndicesFrom 0
          (vals.take (specSpliceIndex (vals.length : Int) index).toNat
            ++ [e1, e2, e3, e4, e5, e6].filterMap id
            ++ vals.drop (specSpliceIndex (vals.length : Int) index
                + specSpliceHowMany (vals.length : Int)
                    (specSpliceIndex (vals.length : Int) index) hmv).toNat) := by
  have hlen : (0 : Int) ≤ (vals.length : Int) := by omega
  have hbix := specSpliceIndex_bounds (vals.length : Int) index hlen
  have hbhm := specSpliceHowMany_bounds (vals.length : Int)
    (specSpliceIndex (vals.length : Int) index) hmv (by omega)
  have hhm := spliceHowManyCode_nonneg (vals.length : Int)
    (specSpliceIndex (vals.length : Int) index) hmv (by omega) (by omega) hnn
  simp only [jswrap_array_splice, arrayLength_withIndicesFrom,
    spliceNormIndex_eq_spec _ _ hlen, hhm.1,
    spliceScan_eq _ _ _ (withIndicesFrom_pairwise vals 0)]
  rw [filter_lt_withIndicesFrom vals 0 (specSpliceIndex (vals.length : Int) index),
    show specSpliceIndex (vals.length : Int) index - 0
        = specSpliceIndex (vals.length : Int) index by ring]
  have hcong : (withIndicesFrom 0 vals).filter (fun p =>
        decide (specSpliceIndex (vals.length : Int) index ≤ p.1
          ∧ specSpliceIndex (vals.length : Int) index
            + specSpliceHowMany (vals.length : Int)
                (specSpliceIndex (vals.length : Int) index) hmv ≤ p.1))
      = (withIndicesFrom 0 vals).filter (fun p =>
        decide (specSpliceIndex (vals.length : Int) index
          + specSpliceHowMany (vals.length : Int)
              (specSpliceIndex (vals.length : Int) index) hmv ≤ p.1)) :=
    List.filter_congr (fun p _ => by rw [decide_eq_decide]; omega)
  rw [hcong]
  rw [filter_ge_withIndicesFrom vals 0
      (specSpliceIndex (vals.length : Int) index
        + specSpliceHowMany (vals.length : Int)
            (specSpliceIndex (vals.length : Int) index) hmv),
    show max (specSpliceIndex (vals.length : Int) index
        + specSpliceHowMany (vals.length : Int)
            (specSpliceIndex (vals.length : Int) index) hmv) 0
      = specSpliceIndex (vals.length : Int) index
        + specSpliceHowMany (vals.length : Int)
            (specSpliceIndex (vals.length : Int) index) hmv by omega,
    show specSpliceIndex (vals.length : Int) index
        + specSpliceHowMany (vals.length : Int)
            (specSpliceIndex (vals.length : Int) index) hmv - 0
      = specSpliceIndex (vals.length : Int) index
        + specSpliceHowMany (vals.length : Int)
            (specSpliceIndex (vals.length : Int) index) hmv by ring,
    renumber_withIndicesFrom]
  rw [withIndicesFrom_append
      (vals.take (specSpliceIndex (vals.length : Int) index).toNat
        ++ [e1, e2, e3, e4, e5, e6].filterMap id),
    withIndicesFrom_append (vals.take (specSpliceIndex (vals.length : Int) index).toNat)]
  have htake : ((vals.take (specSpliceIndex (vals.length : Int) index).toNat).length : Int)
      = specSpliceIndex (vals.length : Int) index := by
    rw [List.length_take]
    omega
  rw [List.length_append]
  push_cast
  rw [htake, spliceNewItems_eq]
  have h1 : (0 : Int) + specSpliceIndex (vals.length : Int) index
      = specSpliceIndex (vals.length : Int) index := by ring
  have h2 : specSpliceIndex (vals.length : Int) index
        + specSpliceHowMany (vals.length : Int) (specSpliceIndex (vals.length : Int) index) hmv
        + ((([e1, e2, e3, e4, e5, e6].filterMap id).length : Int)
          - specSpliceHowMany (vals.length : Int) (specSpliceIndex (vals.length : Int) index) hmv)
      = 0 + (specSpliceIndex (vals.length : Int) index
          + (([e1, e2, e3, e4, e5, e6].filterMap id).length : Int)) := by ring
  rw [h1, h2]

/-- C4 (amended): for a dense receiver (bindings at exactly `0..len-1`) and a
`howMany` argument that is nonnegative when an integer, a splice removing
`removedCount` bindings and inserting `insertedCount` items keeps every
binding below the splice point unchanged, shifts the index of every retained
binding at or after the splice point by exactly
`insertedCount - removedCount`, and the remaining length is
`len - removedCount + insertedCount`.  (Here `removedCount` equals the
clamped `howMany`, as the third conjunct shows.) -/
theorem splice_shifts_tail (vals : List α) (index : Int) (hmv : Option Int)
    (e1 e2 e3 e4 e5 e6 : Option α)
    (hnn : ∀ hq : Int, hmv = some hq → 0 ≤ hq) :
    (∀ (i : Int) (v : α), (i, v) ∈ withIndicesFrom 0 vals →
        i < specSpliceIndex (vals.length : Int) index →
        (i, v) ∈ (jswrap_array_splice (withIndicesFrom 0 vals)
          index hmv e1 e2 e3 e4 e5 e6 true).1)
    ∧ (∀ (i : Int) (v : α), (i, v) ∈ withIndicesFrom 0 vals →
        specSpliceIndex (vals.length : Int) index
          + specSpliceHowMany (vals.length : Int)
              (specSpliceIndex (vals.length : Int) index) hmv ≤ i →
        (i + (spliceNewItems e1 e2 e3 e4 e5 e6
            - specSpliceHowMany (vals.length : Int)
                (specSpliceIndex (vals.length : Int) index) hmv), v)
          ∈ (jswrap_array_splice (withIndicesFrom 0 vals)
              index hmv e1 e2 e3 e4 e5 e6 true).1)
    ∧ ((((jswrap_array_splice (withIndicesFrom 0 vals)
          index hmv e1 e2 e3 e4 e5 e6 true).2.getD []).length : Int)
        = specSpliceHowMany (vals.length : Int)
            (specSpliceIndex (vals.length : Int) index) hmv)
    ∧ arrayLength (jswrap_array_splice (withIndicesFrom 0 vals)
          index hmv e1 e2 e3 e4 e5 e6 true).1
        = arrayLength (withIndicesFrom 0 vals)
          - specSpliceHowMany (vals.length : Int)
              (specSpliceIndex (vals.length : Int) index) hmv
          + spliceNewItems e1 e2 e3 e4 e5 e6 := by
  have hlen : (0 : Int) ≤ (vals.length : Int) := by omega
  have hbix := specSpliceIndex_bounds (vals.length : Int) index hlen
  have hbhm := specSpliceHowMany_bounds (vals.length : Int)
    (specSpliceIndex (vals.length : Int) index) hmv (by omega)
  rw [splice_dense_fst vals index hmv e1 e2 e3 e4 e5 e6 true hnn,
    splice_dense_snd vals index hmv e1 e2 e3 e4 e5 e6 true hnn]
  have htakelen : (vals.take (specSpliceIndex (vals.length : Int) index).toNat).length
      = (specSpliceIndex (vals.length : Int) index).toNat := by
    rw [List.length_take]
    omega
  refine ⟨?_, ?_, ?_, ?_⟩
  · intro i v hmem hlt
    obtain ⟨j, hij, hget⟩ := (mem_withIndicesFrom_iff vals 0 i v).mp hmem
    refine (mem_withIndicesFrom_iff _ 0 i v).mpr ⟨j, hij, ?_⟩
    rw [List.getElem?_append_left (by
        rw [List.length_append, htakelen]
        omega),
      List.getElem?_append_left (by rw [htakelen]; omega),
      List.getElem?_take_of_lt (by omega)]
    exact hget
  · intro i v hmem hge
    obtain ⟨j, hij, hget⟩ := (mem_withIndicesFrom_iff vals 0 i v).mp hmem
    have hjlt : j < vals.length := by
      by_contra hc
      rw [List.getElem?_eq_none (by omega)] at hget
      exact Option.noConfusion hget
    rw [spliceNewItems_eq]
    refine (mem_withIndicesFrom_iff _ 0 _ v).mpr
      ⟨(specSpliceIndex (vals.length : Int) index).toNat
        + ([e1, e2, e3, e4, e5, e6].filterMap id).length
        + (j - ((specSpliceIndex (vals.length : Int) index
            + specSpliceHowMany (vals.length : Int)
                (specSpliceIndex (vals.length : Int) index) hmv)).toNat), by push_cast; omega, ?_⟩
    rw [List.getElem?_append_right (by
        rw [List.length_append, htakelen]
        omega)]
    rw [List.length_append, htakelen, List.getElem?_drop]
    rw [show ((specSpliceIndex (vals.length : Int) index
          + specSpliceHowMany (vals.length : Int)
              (specSpliceIndex (vals.length : Int) index) hmv)).toNat
        + ((specSpliceIndex (vals.length : Int) index).toNat
          + ([e1, e2, e3, e4, e5, e6].filterMap id).length
          + (j - ((specSpliceIndex (vals.length : Int) index
              + specSpliceHowMany (vals.length : Int)
                  (specSpliceIndex (vals.length : Int) index) hmv)).toNat)
          - ((specSpliceIndex (vals.length : Int) index).toNat
            + ([e1, e2, e3, e4, e5, e6].filterMap id).length)) = j by omega]
    exact hget
  · simp only [Option.getD_some, if_pos]
    rw [List.length_take, List.length_drop]
    omega
  · rw [arrayLength_withIndicesFrom, arrayLength_withIndicesFrom, spliceNewItems_eq]
    simp only [List.length_append, htakelen, List.length_drop]
    push_cast
    omega

/-- Counterexample input for C4 as stated: `[1,2,3].splice(0, -1)` removes
nothing and inserts nothing, so the claim predicts the receiver is unchanged
with length `3`; the code does not clamp a negative `howMany` below, computes
shift `0 - (-1) = 1`, renumbers every binding up by one, and the length
becomes `4`. -/
theorem splice_shifts_tail_cex :
    arrayLength ((jswrap_array_splice [((0 : Int), (1 : Int)), (1, 2), (2, 3)]
      0 (some (-1)) none none none none none none true).1) ≠ 3 - 0 + 0 := by
  decide

/-- Witness for `splice_shifts_tail` at `[1,2,3].splice(1, 1, 10)`. -/
theorem splice_shifts_tail_witness :
    (∀ hq : Int, (some 1 : Option Int) = some hq → 0 ≤ hq)
    ∧ ((∀ (i : Int) (v : Int), (i, v) ∈ withIndicesFrom 0 [1, 2, 3] →
        i < specSpliceIndex (([1, 2, 3] : List Int).length : Int) 1 →
        (i, v) ∈ (jswrap_array_splice (withIndicesFrom 0 [1, 2, 3])
          1 (some 1) (some 10) none none none none none true).1)
    ∧ (∀ (i : Int) (v : Int), (i, v) ∈ withIndicesFrom 0 [1, 2, 3] →
        specSpliceIndex (([1, 2, 3] : List Int).length : Int) 1
          + specSpliceHowMany (([1, 2, 3] : List Int).length : Int)
              (specSpliceIndex (([1, 2, 3] : List Int).length : Int) 1) (some 1) ≤ i →
        (i + (spliceNewItems (some 10) none none none none none
            - specSpliceHowMany (([1, 2, 3] : List Int).length : Int)
                (specSpliceIndex (([1, 2, 3] : List Int).length : Int) 1) (some 1)), v)
          ∈ (jswrap_array_splice (withIndicesFrom 0 [1, 2, 3])
              1 (some 1) (some 10) none none none none none true).1)
    ∧ ((((jswrap_array_splice (withIndicesFrom 0 [1, 2, 3])
          1 (some 1) (some 10) none none none none none true).2.getD []).length : Int)
        = specSpliceHowMany (([1, 2, 3] : List Int).length : Int)
            (specSpliceIndex (([1, 2, 3] : List Int).length : Int) 1) (some 1))
    ∧ arrayLength (jswrap_array_splice (withIndicesFrom 0 [1, 2, 3])
          1 (some 1) (some 10) none none none none none true).1
        = arrayLength (withIndicesFrom 0 ([1, 2, 3] : List Int))
          - specSpliceHowMany (([1, 2, 3] : List Int).length : Int)
              (specSpliceIndex (([1, 2, 3] : List Int).length : Int) 1) (some 1)
          + spliceNewItems (some 10) none none none none none) := by
  refine ⟨fun hq h => by have := Option.some.inj h; omega, ?_⟩
  exact splice_shifts_tail [1, 2, 3] 1 (some 1) (some 10) none none none none none
    (fun hq h => by have := Option.some.inj h; omega)

/-- C9: when allocating the result array fails, splice performs exactly the
same removals, insertions and renumbering on the receiver as in the
successful case, and returns no value instead of the removed-elements
array. -/
theorem splice_oom_same_receiver (arr : List (Int × α)) (index : Int) (hmv : Option Int)
    (e1 e2 e3 e4 e5 e6 : Option α) :
    (jswrap_array_splice arr index hmv e1 e2 e3 e4 e5 e6 false).1
      = (jswrap_array_splice arr index hmv e1 e2 e3 e4 e5 e6 true).1
    ∧ (jswrap_array_splice arr index hmv e1 e2 e3 e4 e5 e6 false).2 = none :=
  ⟨rfl, rfl⟩

/-- C10: splice exposes exactly six optional insertion parameters; the
inserted segment of the receiver consists, in parameter order, of exactly
the supplied ones, and their count (`newItems`) is at most six. -/
theorem splice_six_insertions (arr : List (Int × α)) (index : Int) (hmv : Option Int)
    (e1 e2 e3 e4 e5 e6 : Option α) (ra : Bool) :
    (jswrap_array_splice arr index hmv e1 e2 e3 e4 e5 e6 ra).1.map Prod.snd
      = (spliceScan (spliceNormIndex (arrayLength arr) index)
          (spliceNormIndex (arrayLength arr) index
            + spliceHowManyCode (arrayLength arr)
                (spliceNormIndex (arrayLength arr) index) hmv) arr).1.map Prod.snd
        ++ [e1, e2, e3, e4, e5, e6].filterMap id
        ++ (spliceScan (spliceNormIndex (arrayLength arr) index)
            (spliceNormIndex (arrayLength arr) index
              + spliceHowManyCode (arrayLength arr)
                  (spliceNormIndex (arrayLength arr) index) hmv) arr).2.2.map Prod.snd
    ∧ (([e1, e2, e3, e4, e5, e6].filterMap id).length : Int)
        = spliceNewItems e1 e2 e3 e4 e5 e6
    ∧ spliceNewItems e1 e2 e3 e4 e5 e6 ≤ 6 := by
  refine ⟨?_, (spliceNewItems_eq e1 e2 e3 e4 e5 e6).symm,
    spliceNewItems_le_six e1 e2 e3 e4 e5 e6⟩
  simp [jswrap_array_splice, renumber_map_snd, withIndicesFrom_map_snd]

/-! ## Claim theorems for sort, slice, concat, constructor, map -/

/-- C1 counterexample: with the comparator that answers `1` on every pair,
the partition pass classifies every element as "high", the array comes back
unchanged, and the adjacent pair `(1, 2)` has `cmp 1 2 = 1 > 0` — so sort
with an arbitrary comparator need not leave adjacent pairs with
`cmp(a,b) ≤ 0`. -/
theorem sort_cmp_chain_cex :
    ¬ List.Chain' (fun a b => cmpConstOne a b ≤ 0)
      (_jswrap_array_sort (_jswrap_array_sort_leq (some cmpConstOne)) [1, 2]) := by
  intro hch
  have h1 : _jswrap_array_sort (_jswrap_array_sort_leq (some cmpConstOne)) [1, 2]
      = [1, 2] := rfl
  rw [h1] at hch
  have h2 := (List.chain'_cons.mp hch).1
  simp only [cmpConstOne] at h2
  omega

/-- C1 (amended): sort with no comparator leaves the elements (a permutation
of the input) in non-decreasing order under the default relational `≤`; sort
with a comparator `cmp` that is sign-consistent (`cmp(a,b) ≥ 0` implies
`cmp(b,a) ≤ 0`, as any ECMAScript-consistent comparator is) leaves the
elements in an order where every adjacent pair satisfies `cmp(a,b) ≤ 0`. -/
theorem sort_output_ordered (cmp : Int → Int → Int)
    (hc : ∀ a b : Int, 0 ≤ cmp a b → cmp b a ≤ 0) (xs ys : List Int) :
    (List.Chain' (fun a b : Int => a ≤ b)
        (_jswrap_array_sort (_jswrap_array_sort_leq none) xs)
      ∧ List.Perm (_jswrap_array_sort (_jswrap_array_sort_leq none) xs) xs)
    ∧ (List.Chain' (fun a b => cmp a b ≤ 0)
        (_jswrap_array_sort (_jswrap_array_sort_leq (some cmp)) ys)
      ∧ List.Perm (_jswrap_array_sort (_jswrap_array_sort_leq (some cmp)) ys) ys) := by
  refine ⟨⟨?_, sortFuel_perm _ xs.length xs le_rfl⟩,
    ⟨?_, sortFuel_perm _ ys.length ys le_rfl⟩⟩
  · exact sortFuel_chain _ _
      (fun a b h => by simpa [_jswrap_array_sort_leq] using h)
      (fun a b h => by
        simp only [_jswrap_array_sort_leq, decide_eq_false_iff_not, not_lt] at h
        omega)
      xs.length xs le_rfl
  · exact sortFuel_chain _ _
      (fun a b h => by
        simp only [_jswrap_array_sort_leq, decide_eq_true_eq] at h
        omega)
      (fun a b h => by
        simp only [_jswrap_array_sort_leq, decide_eq_false_iff_not, not_lt] at h
        exact hc a b h)
      ys.length ys le_rfl

/-- Witness for `sort_output_ordered` with the constant `-1` comparator. -/
theorem sort_output_ordered_witness :
    (List.Chain' (fun a b : Int => a ≤ b)
        (_jswrap_array_sort (_jswrap_array_sort_leq none) [3, 1, 2])
      ∧ List.Perm (_jswrap_array_sort (_jswrap_array_sort_leq none) [3, 1, 2]) [3, 1, 2])
    ∧ (List.Chain' (fun a b => (fun _ _ : Int => (-1 : Int)) a b ≤ 0)
        (_jswrap_array_sort (_jswrap_array_sort_leq (some (fun _ _ => -1))) [2, 1, 2])
      ∧ List.Perm
          (_jswrap_array_sort (_jswrap_array_sort_leq (some (fun _ _ => -1))) [2, 1, 2])
          [2, 1, 2]) :=
  sort_output_ordered (fun _ _ => -1)
    (fun a b _ => by show (-1 : Int) ≤ 0; decide) [3, 1, 2] [2, 1, 2]

/-- C2: whenever the cooperative-interrupt flag becomes set (after any
number `t` of partition-loop iterations), the sort abandons at a loop
boundary and the values afterwards are exactly a permutation of the original
values — no element is lost, duplicated or corrupted.  (The sort writes only
through `setValue` on existing bindings, so the binding structure itself is
untouched; the value sequence is the observable content.) -/
theorem sort_interrupt_perm (t : Nat) (leq : α → α → Bool) (xs : List α) :
    List.Perm (_jswrap_array_sortI t leq xs).1 xs :=
  sortIntFuel_perm t leq xs.length xs 0

theorem slice_bound_range (len v : Int) (h : 0 ≤ len) :
    0 ≤ specSliceBound len v ∧ specSliceBound len v ≤ len := by
  simp only [specSliceBound]
  split_ifs <;> omega

theorem slice_loop_dense (vals : List α) (start stop : Int) :
    sliceLoop (specSliceBound (vals.length : Int) stop)
        (specSliceBound (vals.length : Int) start) (withIndicesFrom 0 vals)
      = ((withIndicesFrom 0 vals).filter (fun p =>
          decide (specSliceBound (vals.length : Int) start ≤ p.1
            ∧ p.1 < specSliceBound (vals.length : Int) stop))).map Prod.snd := by
  have hb1 := slice_bound_range (vals.length : Int) start (by omega)
  rw [sliceLoop_withIndicesFrom vals 0 _ _ (by omega),
    filter_window_withIndicesFrom vals 0 (specSliceBound (vals.length : Int) start)
      (specSliceBound (vals.length : Int) stop),
    show specSliceBound (vals.length : Int) start - 0
        = specSliceBound (vals.length : Int) start by ring,
    show max (specSliceBound (vals.length : Int) start) 0
        = specSliceBound (vals.length : Int) start by omega]

/-- C5 counterexample: on the sparse array `{0: 10, 5: 20}` (length 6),
`slice(0, 2)` per the claim should contain only the value bound in `[0, 2)`,
namely `[10]`; the code instead counts existing elements (`k` increments per
collected element), so it returns `[10, 20]`. -/
theorem slice_sparse_cex :
    jswrap_array_slice [((0 : Int), (10 : Int)), (5, 20)] (some 0) (some 2) ≠ [10] := by
  decide

/-- C5 (amended): for dense arrays, slice returns a new dense array holding,
in order, exactly the values whose original index falls in `[start, end)`
(bounds normalized: negative counts from the end, clamped to `[0, len]`,
`end` defaulting to the length), and its length is
`max 0 (end' - start')` for the normalized bounds.  For sparse arrays the
code instead collects up to `end - start` existing elements starting at the
first binding with index at least `start` (see the counterexample). -/
theorem slice_dense_claim (vals : List α) (sv ev : Option Int) :
    jswrap_array_slice (withIndicesFrom 0 vals) sv ev
      = ((withIndicesFrom 0 vals).filter (fun p =>
          decide (specSliceBound (vals.length : Int) (sv.getD 0) ≤ p.1
            ∧ p.1 < specSliceBound (vals.length : Int)
                (ev.getD (vals.length : Int))))).map Prod.snd
    ∧ (jswrap_array_slice (withIndicesFrom 0 vals) sv ev).length
      = (specSliceBound (vals.length : Int) (ev.getD (vals.length : Int))
          - specSliceBound (vals.length : Int) (sv.getD 0)).toNat := by
  have key : jswrap_array_slice (withIndicesFrom 0 vals) sv ev
      = sliceLoop (specSliceBound (vals.length : Int) (ev.getD (vals.length : Int)))
          (specSliceBound (vals.length : Int) (sv.getD 0)) (withIndicesFrom 0 vals) := by
    cases sv <;> cases ev <;>
      simp [jswrap_array_slice, specSliceBound, arrayLength_withIndicesFrom, Option.getD]
  have hb1 := slice_bound_range (vals.length : Int) (sv.getD 0) (by omega)
  have hb2 := slice_bound_range (vals.length : Int) (ev.getD (vals.length : Int)) (by omega)
  constructor
  · rw [key]
    exact slice_loop_dense vals _ _
  · rw [key, sliceLoop_withIndicesFrom vals 0 _ _ (by omega),
      List.length_take, List.length_drop]
    omega

/-- C6: the code's `concat`, evaluated at `[1].concat([2])`.  Whenever a
source (here the argument `[2]`) is an array, the loop iterates `parent` —
the receiver — instead of that source, so the receiver's elements are
appended again: the result is `[1, 1]`, where the corrected contract of the
claim (and spec §4.2/§9) requires `[1, 2]`. -/
theorem concat_rescans_receiver :
    jswrap_array_concat [JsVal.int 1] [JsVal.arr [JsVal.int 2]]
      = [JsVal.int 1, JsVal.int 1]
    ∧ concat_contract [JsVal.int 1] [JsVal.arr [JsVal.int 2]]
      = [JsVal.int 1, JsVal.int 2] :=
  ⟨rfl, rfl⟩

/-- C7: the constructor evaluated at the failing input `new Array(0)`.  The
claim (and the function's own documentation) requires a sparse array of
length `0` with no bindings; because the code only builds the marker binding
when `count > 0`, the call falls through and returns the `args` array
itself: one binding `0 ↦ 0`, of length `1`. -/
theorem constructor_zero_arg :
    jswrap_array_constructor [JsVal.int 0] = [((0 : Int), some (JsVal.int 0))]
    ∧ arrayLength (jswrap_array_constructor [JsVal.int 0]) = 1
    ∧ jswrap_array_constructor [JsVal.int 3] = [((2 : Int), none)]
    ∧ arrayLength (jswrap_array_constructor [JsVal.int 3]) = 3 :=
  ⟨rfl, by decide, rfl, by decide⟩

/-- C8: if the first argument of map/forEach is not callable, or the
`thisArg` is neither undefined nor an object, the operation raises a typed
error and returns no value before invoking the callback (the invocation
trace is empty) — and since the receiver can only change through callback
invocations, it is left completely unchanged. -/
theorem mapForEach_invalid_args (parent : List (Int × JsVal)) (funcVar thisVar : JsVal)
    (callFn : JsVal → Int → Option JsVal)
    (h : jsvIsFunction funcVar = false
      ∨ (jsvIsUndefined thisVar = false ∧ jsvIsObject thisVar = false)) :
    jswrap_array_map parent funcVar thisVar callFn = (true, none, [])
    ∧ jswrap_array_forEach parent funcVar thisVar callFn = (true, none, []) := by
  rcases h with h | ⟨h1, h2⟩
  · constructor <;>
      simp [jswrap_array_map, jswrap_array_forEach, _jswrap_array_map_or_forEach, h]
  · constructor <;> by_cases hf : jsvIsFunction funcVar <;>
      simp [jswrap_array_map, jswrap_array_forEach, _jswrap_array_map_or_forEach, hf, h1, h2]

/-- Witness for `mapForEach_invalid_args`: the integer `0` is not callable. -/
theorem mapForEach_invalid_args_witness :
    (jsvIsFunction (JsVal.int 0) = false
      ∨ (jsvIsUndefined JsVal.undef = false ∧ jsvIsObject JsVal.undef = false))
    ∧ (jswrap_array_map [(0, JsVal.int 5)] (JsVal.int 0) JsVal.undef
          (fun v _ => some v) = (true, none, [])
      ∧ jswrap_array_forEach [(0, JsVal.int 5)] (JsVal.int 0) JsVal.undef
          (fun v _ => some v) = (true, none, [])) :=
  ⟨Or.inl (by decide),
    mapForEach_invalid_args [(0, JsVal.int 5)] (JsVal.int 0) JsVal.undef
      (fun v _ => some v) (Or.inl (by decide))⟩

end Espruino
